import Mathlib

/-
Verification of the dependency-file parser and archive assembler of
`arxiv_collector.py` (v0.4.1).  The Python source is shallowly embedded:
strings are lists of characters (`Str`), the filesystem is an explicit
structure (symlink table, set of existing files, file contents), fallible
code returns `Except`.  Each definition mirrors one Python function and is
named after it where Lean allows.
-/

namespace ArxivCollector

/-- Python strings are modelled as lists of characters. -/
abbrev Str := List Char

/-- Convenience injection from Lean string literals. -/
def str (s : String) : Str := s.data

/-- `suf` occurs at the end of `s` (Python `str.endswith`). -/
def endsWithS (s suf : Str) : Bool := suf.isSuffixOf s

/-- Drop the final `n` characters (Python `s[:-n]`, assuming `n ≤ len s`). -/
def dropRightN (s : Str) (n : Nat) : Str := s.take (s.length - n)

/-- Remove one trailing newline if present: the preprocessing both `expect`
and `expect_re` perform (`if seen.endswith("\n"): seen = seen[:-1]`). -/
def stripNL (s : Str) : Str := if endsWithS s (str "\n") then s.dropLast else s

/-- The whitespace characters removed by Python `str.strip()` (ASCII part;
dependency lines contain no exotic whitespace). -/
def pyWS (c : Char) : Bool :=
  c = ' ' || c = '\t' || c = '\n' || c = '\r' || c = '\x0b' || c = '\x0c'

/-- Python `str.strip()`. -/
def pyStrip (s : Str) : Str :=
  ((s.dropWhile pyWS).reverse.dropWhile pyWS).reverse

/-- Python `os.path.isabs` on POSIX: the path starts with a slash. -/
def isAbsS : Str → Bool
  | '/' :: _ => true
  | _ => false

/-- Index of the last occurrence of `c` (Python `str.rfind`, `none` for -1). -/
def lastIdxOf (c : Char) : Str → Option Nat
  | [] => none
  | a :: as =>
    match lastIdxOf c as with
    | some i => some (i + 1)
    | none => if a = c then some 0 else none

/-- The root part of Python `os.path.splitext` (POSIX rules): cut at the last
dot that comes after the last slash, unless every character between the
start of the basename and that dot is itself a dot. -/
def splitextRoot (p : Str) : Str :=
  match lastIdxOf '.' p with
  | none => p
  | some d =>
    let s : Nat := match lastIdxOf '/' p with
      | none => 0
      | some k => k + 1
    if s ≤ d then
      if (List.range' s (d - s)).any (fun i => p.getD i ' ' != '.') then
        p.take d
      else p
    else p

/-- Python `os.path.basename` on POSIX. -/
def basenameS (p : Str) : Str :=
  match lastIdxOf '/' p with
  | none => p
  | some i => p.drop (i + 1)

/-- Does `n` occur as a contiguous substring of the second argument
(`re.search` of the literal `n`)? -/
def containsSub (n : Str) : Str → Bool
  | [] => n.isEmpty
  | c :: t => n.isPrefixOf (c :: t) || containsSub n t

/-
`pkg_re = re.compile("/" + "|".join(re.escape(p) for p in packages) + "/")`.
Because `|` binds loosest, the pattern `/p1|p2|...|pn/` has the alternatives
`/p1`, `p2`, ..., `p(n-1)`, `pn/`: only the first name gets the leading
slash and only the last the trailing one.  With a single package the sole
alternative is `/p1/`.  `re.escape` makes each name a literal, so
`pkg_re.search(dep)` holds iff some alternative is a substring of `dep`.
-/

/-- Alternatives contributed by all package names after the first. -/
def middleAlts : List Str → List Str
  | [] => []
  | [q] => [q ++ str "/"]
  | q :: qs => q :: middleAlts qs

/-- All alternatives of the compiled `pkg_re` pattern. -/
def pkgAlternatives : List Str → List Str
  | [] => [str "//"]
  | [p] => [str "/" ++ p ++ str "/"]
  | p :: ps => (str "/" ++ p) :: middleAlts ps

/-- `pkg_re.search(dep)` as a Boolean. -/
def pkgMatch (packages : List Str) (dep : Str) : Bool :=
  (pkgAlternatives packages).any (fun a => containsSub a dep)

/-- The test the spec sentence describes: some package name occurs in the
path wrapped in path separators on both sides.  (Stated from the spec's
words, for comparison with `pkgMatch`, which is stated from the code.) -/
def wrappedMatch (packages : List Str) (dep : Str) : Bool :=
  packages.any (fun p => containsSub (str "/" ++ p ++ str "/") dep)

/-
`strip_comment = partial(re.compile(r"(^|[^\\])%.*").sub, r"\1%")`.
`re.sub` rewrites every leftmost match.  A `%` can anchor a match when it
sits at the start of the string or right after a non-backslash character
inside the not-yet-consumed region; the match then swallows every following
character up to (not including) the next newline, and the replacement
`\1%` keeps the anchoring character and the `%` itself.  After a match the
scan resumes at the newline, so the machine below (scan mode = start of
string / after an emitted character / inside a swallowed comment) computes
exactly the same string.
-/

/-- Scanner mode for `strip_comment`. -/
inductive SMode
  | start
  | afterChar (p : Char)
  | dropping
deriving DecidableEq

/-- One pass of the `strip_comment` substitution. -/
def stripGo : SMode → Str → Str
  | _, [] => []
  | .dropping, c :: cs =>
    if c = '\n' then '\n' :: stripGo (.afterChar '\n') cs
    else stripGo .dropping cs
  | .start, c :: cs =>
    if c = '%' then '%' :: stripGo .dropping cs
    else c :: stripGo (.afterChar c) cs
  | .afterChar p, c :: cs =>
    if c = '%' ∧ p ≠ '\\' then '%' :: stripGo .dropping cs
    else c :: stripGo (.afterChar c) cs

/-- `strip_comment(line)`. -/
def strip_comment (s : Str) : Str := stripGo .start s

/-- Position of the first `%` that the pattern `(^|[^\\])%` can match, in a
string scanned after the character `p`. -/
def firstUnescFrom (p : Char) : Str → Option Nat
  | [] => none
  | c :: cs =>
    if c = '%' ∧ p ≠ '\\' then some 0
    else (firstUnescFrom c cs).map (· + 1)

/-- Position of the first `%` that `(^|[^\\])%` can match, scanning from the
start of the string. -/
def firstUnesc : Str → Option Nat
  | [] => none
  | c :: cs =>
    if c = '%' then some 0
    else (firstUnescFrom c cs).map (· + 1)

/-
`target(fname)`: follow symlinks, remembering every name seen; raise
`ValueError` on a revisit.  The link table of the modelled filesystem is a
finite association list; the fuel `links.length + 1` is proved sufficient
below.
-/

/-- `os.readlink` on the modelled link table (`none` when not a link). -/
def lookupLink (links : List (Str × Str)) (x : Str) : Option Str :=
  match links.find? (fun p => decide (p.1 = x)) with
  | some p => some p.2
  | none => none

/-- Outcome of `target`: the resolved path, or the `ValueError` raised on a
link cycle. -/
inductive TargetResult
  | ok (dest : Str)
  | cycle
deriving DecidableEq

/-- The `while os.path.islink` loop of `target`, with explicit fuel. -/
def target_aux (links : List (Str × Str)) : Nat → List Str → Str → Option TargetResult
  | 0, _, _ => none
  | fuel + 1, seen, fname =>
    match lookupLink links fname with
    | none => some (.ok fname)
    | some new =>
      if new ∈ seen then some .cycle
      else target_aux links fuel (new :: seen) new

/-- `target(fname)`. -/
def target (links : List (Str × Str)) (fname : Str) : Option TargetResult :=
  target_aux links (links.length + 1) [fname] fname

/-
The modelled filesystem: a finite symlink table, the finite set of
(non-link) file paths that exist, and the lines a text file holds.
-/

/-- The filesystem a run of `collect` sees. -/
structure FS where
  links : List (Str × Str)
  files : List Str
  content : Str → List Str

/-- One member written into the output tar: either a disk file added under
an archive name (`out_tar.add`), or in-memory bytes (`out_tar.addfile`). -/
inductive ArchiveEntry
  | file (src arcname : Str)
  | data (name : Str) (lines : List Str)
deriving DecidableEq

/-- The exceptions `collect` can raise.  `missing` is the `OSError` for an
absent file, `linkCycle` the `ValueError` of `target`, `parseErr` the
`ValueError` of `expect`/`expect_re`, `unboundLocal` the
`UnboundLocalError` of reading the never-assigned loop variable,
`stopIteration` a bare `next` on an exhausted iterator, and `fuelOut` is
the (provably unreachable) exhaustion of the link-resolution fuel. -/
inductive CErr
  | missing (path : Str)
  | linkCycle
  | parseErr
  | unboundLocal
  | stopIteration
  | fuelOut
deriving DecidableEq

/-- Result of a completed `collect` run: the tar members in write order and
whether the missing-`.bbl` warning was printed. -/
structure CollectOut where
  entries : List ArchiveEntry
  warned : Bool
deriving DecidableEq

/-- `os.path.exists` (follows symlinks; false on a dangling or cyclic
link). -/
def osExists (fs : FS) (p : Str) : Bool :=
  match target fs.links p with
  | some (.ok q) => decide (q ∈ fs.files)
  | _ => false

/-- The local helper `add(path, arcname)` of `collect`: resolve symlinks,
require the destination to exist, and emit a tar member. -/
def add (fs : FS) (path arcname : Str) : Except CErr ArchiveEntry :=
  match target fs.links path with
  | none => .error .fuelOut
  | some .cycle => .error .linkCycle
  | some (.ok dest) =>
    if dest ∈ fs.files then .ok (.file dest arcname)
    else .error (.missing path)

/-- A raw dependency line turned into a path: `dep = line.strip()`, then one
trailing line-continuation backslash removed. -/
def depOf (line : Str) : Str :=
  let d := pyStrip line
  if endsWithS d (str "\\") then d.dropLast else d

/-- Processing of one dependency path in the body loop of `collect`:
classification order and effect exactly as the `if/elif` chain.  Returns
the tar members this entry contributes and whether it set `used_bib`. -/
def processDep (fs : FS) (packages : List Str) (strip_comments include_bib : Bool)
    (dep : Str) : Except CErr (List ArchiveEntry × Bool) :=
  if isAbsS dep then
    if pkgMatch packages dep then
      match add fs dep (basenameS dep) with
      | .error e => .error e
      | .ok e => .ok ([e], false)
    else .ok ([], false)
  else if endsWithS dep (str ".tex") && strip_comments then
    -- `io.open(dep)` follows symlinks; a missing file raises `OSError`.
    match target fs.links dep with
    | none => .error .fuelOut
    | some .cycle => .error (.missing dep)
    | some (.ok q) =>
      if q ∈ fs.files then
        .ok ([.data dep ((fs.content q).map strip_comment)], false)
      else .error (.missing dep)
  else if endsWithS dep (str ".eps") then
    match add fs (dropRightN dep 4 ++ str "-eps-converted-to.pdf")
        (dropRightN dep 4 ++ str ".pdf") with
    | .error e => .error e
    | .ok e => .ok ([e], false)
  else if endsWithS dep (str "-eps-converted-to.pdf") then
    .ok ([], false)
  else if endsWithS dep (str ".bib") then
    if include_bib then
      match add fs dep dep with
      | .error e => .error e
      | .ok e => .ok ([e], true)
    else .ok ([], true)
  else
    match add fs dep dep with
    | .error e => .error e
    | .ok e => .ok ([e], false)

/-- The comparison made by `expect(seen, exp, ...)`: strip one trailing
newline from `seen` and test membership in `exp`. -/
def expect (seen : Str) (exp : List Str) : Bool :=
  decide (stripNL seen ∈ exp)

/-- The two accepted terminator lines (trailing newline included, exactly as
`end_lines` is built). -/
def endLinesFor (filename : Str) : List Str :=
  [str "#===End dependents for " ++ filename ++ str ":\n",
   str "#===End dependents for " ++ splitextRoot filename ++ str ":\n"]

/-- The `for line in lines` body loop of `collect`.  `last` is the current
value of the loop variable (`none` before the first iteration); on a break
the lines after the terminator are returned for the trailer check.  When
the iterator is exhausted without a break, the `for/else` clause runs
`expect` on the loop variable — reading it unassigned when the body never
ran. -/
def loopBody (fs : FS) (packages : List Str) (sc ib : Bool) (endLines : List Str) :
    Option Str → List Str → Except CErr (List ArchiveEntry × Bool × List Str)
  | last, [] =>
    match last with
    | none => .error .unboundLocal
    | some l => if expect l endLines then .ok ([], false, []) else .error .parseErr
  | _, l :: ls =>
    if l ∈ endLines then .ok ([], false, ls)
    else
      match processDep fs packages sc ib (depOf l) with
      | .error e => .error e
      | .ok (es, b) =>
        match loopBody fs packages sc ib endLines (some l) ls with
        | .error e => .error e
        | .ok (es', b', rest) => .ok (es ++ es', b || b', rest)

/-- Dependency processing of a line list alone (no terminator logic):
the effect the body loop has on a run of non-terminator lines. -/
def processLines (fs : FS) (packages : List Str) (sc ib : Bool) :
    List Str → Except CErr (List ArchiveEntry × Bool)
  | [] => .ok ([], false)
  | l :: ls =>
    match processDep fs packages sc ib (depOf l) with
    | .error e => .error e
    | .ok (es, b) =>
      match processLines fs packages sc ib ls with
      | .error e => .error e
      | .ok (es', b') => .ok (es ++ es', b || b')

/-- After the break: at most one more line is drawn and must be the
`[end of file]` sentinel (further lines are never read). -/
def checkTrailer : List Str → Except CErr Unit
  | [] => .ok ()
  | bogus :: _ =>
    if expect bogus [str "[end of file]"] then .ok () else .error .parseErr

/-- The tail of `collect`: look for `<jobname>.bbl`, archive it as
`<base_name>.bbl`, or warn when a `.bib` was used but the file is absent. -/
def finishBbl (fs : FS) (baseName jobname : Str) (used_bib : Bool)
    (es : List ArchiveEntry) : Except CErr CollectOut :=
  let bbl := jobname ++ str ".bbl"
  if osExists fs bbl then
    match add fs bbl (baseName ++ str ".bbl") with
    | .error e => .error e
    | .ok e => .ok ⟨es ++ [e], false⟩
  else if used_bib then .ok ⟨es, true⟩
  else .ok ⟨es, false⟩

/-- `expect_re` on line 1 against
`#===Dependents(?:, and related info,)? for (.*):$`: the capture is the
text between the accepted prefix and the final colon. -/
def parseHeader (l : Str) : Option Str :=
  let s := stripNL l
  let long := str "#===Dependents, and related info, for "
  let short := str "#===Dependents for "
  if long.isPrefixOf s then
    let r := s.drop long.length
    if endsWithS r (str ":") then some r.dropLast else none
  else if short.isPrefixOf s then
    let r := s.drop short.length
    if endsWithS r (str ":") then some r.dropLast else none
  else none

/-- `expect_re` on line 2 against `(.*) :\\$`: the capture is the text
before the trailing ` :\`. -/
def parseTarget (l : Str) : Option Str :=
  let s := stripNL l
  if endsWithS s (str " :\\") then some (dropRightN s 3) else none

/-- The two `next(lines)` calls and their `expect_re` checks at the top of
`collect`. -/
def parseTop (lines : List Str) : Except CErr (Str × Str × List Str) :=
  match lines with
  | [] => .error .stopIteration
  | l1 :: rest =>
    match parseHeader l1 with
    | none => .error .parseErr
    | some filename =>
      match rest with
      | [] => .error .stopIteration
      | l2 :: body =>
        match parseTarget l2 with
        | none => .error .parseErr
        | some outName => .ok (filename, outName, body)

/-- Everything `collect` does after the two header lines are parsed. -/
def assemble (fs : FS) (packages : List Str) (sc ib : Bool)
    (filename outName : Str) (body : List Str) : Except CErr CollectOut :=
  match loopBody fs packages sc ib (endLinesFor filename) none body with
  | .error e => .error e
  | .ok (es, ub, rest) =>
    match checkTrailer rest with
    | .error e => .error e
    | .ok _ => finishBbl fs (splitextRoot filename) (splitextRoot outName) ub es

/-- `collect(out_tar, deps_file, packages, strip_comments, ...)` with
`extract_bib_name=False` (the default): the deps file is given as its list
of lines (each line carrying its trailing newline, the final one possibly
not). -/
def collect (fs : FS) (packages : List Str) (strip_comments include_bib : Bool)
    (lines : List Str) : Except CErr CollectOut :=
  match parseTop lines with
  | .error e => .error e
  | .ok (filename, outName, body) =>
    assemble fs packages strip_comments include_bib filename outName body

/-
`get_deps`: the `while os.path.exists(deps_file)` loop that moves to a
fresh name by appending `-<random letter>` until the path does not exist.
`choices` models the successive draws of `random.choice`; the fuel
`files.length + 1` is proved sufficient below.
-/

/-- One renaming step: `deps_file = deps_file + "-" + random.choice(...)`. -/
def extendPath (s : Str) (c : Char) : Str := s ++ ['-', c]

/-- The existence-check loop of `get_deps`, with explicit fuel. -/
def get_deps_aux (files : List Str) (choices : Nat → Char) :
    Nat → Nat → Str → Option Str
  | 0, _, _ => none
  | fuel + 1, i, s =>
    if s ∈ files then get_deps_aux files choices fuel (i + 1) (extendPath s (choices i))
    else some s

/-- The deps-file path `get_deps` settles on. -/
def get_deps (files : List Str) (choices : Nat → Char) (start : Str) : Option Str :=
  get_deps_aux files choices (files.length + 1) 0 start

/-- `x` reaches through consecutive links each element of `ys` in order. -/
def pathLinksB (links : List (Str × Str)) : Str → List Str → Bool
  | _, [] => true
  | x, y :: ys => decide (lookupLink links x = some y) && pathLinksB links y ys

/-- A complete non-cyclic symlink chain: consecutive links through `ys`,
whose last element is not itself a link. -/
def chainB (links : List (Str × Str)) (x : Str) (ys : List Str) : Bool :=
  pathLinksB links x ys && (lookupLink links (ys.getLastD x)).isNone

/-- The value of the loop variable after `pre` has been iterated, starting
from `last`. -/
def lastO (pre : List Str) (last : Option Str) : Option Str :=
  match pre.getLast? with
  | some x => some x
  | none => last

/-- Count of link-table keys not yet recorded in `seen`: the measure showing
the fuel of `target` suffices. -/
def msr (links : List (Str × Str)) (seen : List Str) : Nat :=
  ((links.map Prod.fst).filter (fun k => decide (k ∉ seen))).length

/-! ### Lemmas about `strip_comment` -/

theorem stripGo_dropping_nl (cs : Str) (h : '\n' ∉ cs) :
    stripGo .dropping (cs ++ ['\n']) = ['\n'] := by
  induction cs with
  | nil => rfl
  | cons c cs ih =>
    have hc : ¬ (c = '\n') := fun hh => h (hh ▸ List.mem_cons_self c cs)
    simp only [List.cons_append, stripGo, if_neg hc]
    exact ih (fun hm => h (List.mem_cons_of_mem c hm))

theorem stripGo_dropping_end (cs : Str) (h : '\n' ∉ cs) :
    stripGo .dropping cs = [] := by
  induction cs with
  | nil => rfl
  | cons c cs ih =>
    have hc : ¬ (c = '\n') := fun hh => h (hh ▸ List.mem_cons_self c cs)
    simp only [stripGo, if_neg hc]
    exact ih (fun hm => h (List.mem_cons_of_mem c hm))

theorem stripGo_after_none (l : Str) (p : Char) (r : Str)
    (h : firstUnescFrom p l = none) :
    stripGo (.afterChar p) (l ++ r) = l ++ stripGo (.afterChar (l.getLastD p)) r := by
  induction l generalizing p with
  | nil => simp [List.getLastD]
  | cons c cs ih =>
    unfold firstUnescFrom at h
    by_cases hc : c = '%' ∧ p ≠ '\\'
    · rw [if_pos hc] at h; exact absurd h (by simp)
    · rw [if_neg hc] at h
      have h2 : firstUnescFrom c cs = none := by
        cases he : firstUnescFrom c cs with
        | none => rfl
        | some i => rw [he] at h; exact absurd h (by simp)
      simp only [List.cons_append, stripGo, if_neg hc, List.append_eq]
      rw [ih c h2, List.getLastD_cons]

theorem stripGo_after_some (l : Str) (p : Char) (i : Nat) (r : Str)
    (h : firstUnescFrom p l = some i) :
    stripGo (.afterChar p) (l ++ r) =
      l.take (i + 1) ++ stripGo .dropping (l.drop (i + 1) ++ r) := by
  induction l generalizing p i with
  | nil => exact absurd h (by simp [firstUnescFrom])
  | cons c cs ih =>
    unfold firstUnescFrom at h
    by_cases hc : c = '%' ∧ p ≠ '\\'
    · rw [if_pos hc] at h
      have hi : i = 0 := by injection h with h; omega
      subst hi
      simp only [List.cons_append, stripGo, if_pos hc]
      rw [hc.1]
      rfl
    · rw [if_neg hc] at h
      cases he : firstUnescFrom c cs with
      | none => rw [he] at h; exact absurd h (by simp)
      | some j =>
        rw [he] at h
        have hi : i = j + 1 := by simp at h; omega
        subst hi
        simp only [List.cons_append, stripGo, if_neg hc, List.append_eq]
        rw [ih c j he, List.take_succ_cons, List.drop_succ_cons, List.cons_append]

theorem strip_comment_of_none (l : Str) (h : firstUnesc l = none) :
    strip_comment (l ++ ['\n']) = l ++ ['\n'] ∧ strip_comment l = l := by
  cases l with
  | nil => exact ⟨rfl, rfl⟩
  | cons c cs =>
    simp only [firstUnesc] at h
    by_cases hc : c = '%'
    · rw [if_pos hc] at h; exact absurd h (by simp)
    · rw [if_neg hc] at h
      have h2 : firstUnescFrom c cs = none := by
        cases he : firstUnescFrom c cs with
        | none => rfl
        | some i => rw [he] at h; exact absurd h (by simp)
      constructor
      · show stripGo .start ((c :: cs) ++ ['\n']) = (c :: cs) ++ ['\n']
        simp only [List.cons_append, stripGo, if_neg hc, List.append_eq]
        rw [stripGo_after_none cs c ['\n'] h2]
        have hnl : stripGo (.afterChar (cs.getLastD c)) ['\n'] = ['\n'] := by
          have hx : ¬ (('\n' : Char) = '%' ∧ cs.getLastD c ≠ '\\') := by
            intro hh; exact absurd hh.1 (by decide)
          simp only [stripGo, if_neg hx]
        rw [hnl]
      · show stripGo .start (c :: cs) = c :: cs
        have hmain : stripGo .start (c :: (cs ++ [])) = c :: cs := by
          simp only [stripGo, if_neg hc, List.append_eq]
          rw [stripGo_after_none cs c [] h2]
          simp [stripGo]
        simpa using hmain

theorem strip_comment_of_some (l : Str) (i : Nat) (h : firstUnesc l = some i)
    (hn : '\n' ∉ l) :
    strip_comment (l ++ ['\n']) = l.take (i + 1) ++ ['\n'] ∧
      strip_comment l = l.take (i + 1) := by
  cases l with
  | nil => exact absurd h (by simp [firstUnesc])
  | cons c cs =>
    have hncs : '\n' ∉ cs := fun hm => hn (List.mem_cons_of_mem c hm)
    simp only [firstUnesc] at h
    by_cases hc : c = '%'
    · rw [if_pos hc] at h
      have hi : i = 0 := by injection h with h; omega
      subst hi
      constructor
      · show stripGo .start ((c :: cs) ++ ['\n']) = (c :: cs).take 1 ++ ['\n']
        simp only [List.cons_append, stripGo, if_pos hc, List.append_eq]
        rw [stripGo_dropping_nl cs hncs, hc]
        rfl
      · show stripGo .start (c :: cs) = (c :: cs).take 1
        simp only [stripGo, if_pos hc]
        rw [stripGo_dropping_end cs hncs, hc]
        rfl
    · rw [if_neg hc] at h
      cases he : firstUnescFrom c cs with
      | none => rw [he] at h; exact absurd h (by simp)
      | some j =>
        rw [he] at h
        have hi : i = j + 1 := by simp at h; omega
        subst hi
        have hdrop : '\n' ∉ cs.drop (j + 1) := fun hm => hncs (List.drop_subset _ _ hm)
        constructor
        · show stripGo .start ((c :: cs) ++ ['\n']) = (c :: cs).take (j + 2) ++ ['\n']
          simp only [List.cons_append, stripGo, if_neg hc, List.append_eq]
          rw [stripGo_after_some cs c j ['\n'] he, stripGo_dropping_nl _ hdrop,
            List.take_succ_cons, List.cons_append]
        · show stripGo .start (c :: cs) = (c :: cs).take (j + 2)
          have hmain : stripGo .start (c :: (cs ++ [])) = (c :: cs).take (j + 2) := by
            simp only [stripGo, if_neg hc, List.append_eq]
            rw [stripGo_after_some cs c j [] he, List.append_nil,
              stripGo_dropping_end _ hdrop, List.take_succ_cons, List.append_nil]
          simpa using hmain

/-- Claim C1 (amended): with comment-stripping requested, each line of an
archived `texSource` entry is `strip_comment` of the original line, and
`strip_comment` removes everything strictly after the first unescaped `%`
of the line while keeping that `%` itself; a line with no unescaped `%` —
in particular one whose every `%` is preceded by a backslash — is kept
verbatim. -/
theorem c1_amended :
    (∀ l : Str, '\n' ∉ l →
      ((firstUnesc l = none →
          strip_comment (l ++ ['\n']) = l ++ ['\n'] ∧ strip_comment l = l) ∧
       (∀ i, firstUnesc l = some i →
          strip_comment (l ++ ['\n']) = l.take (i + 1) ++ ['\n'] ∧
            strip_comment l = l.take (i + 1)))) ∧
    (∀ (fs : FS) (packages : List Str) (ib : Bool) (dep q : Str),
      isAbsS dep = false → endsWithS dep (str ".tex") = true →
      target fs.links dep = some (.ok q) → q ∈ fs.files →
      processDep fs packages true ib dep =
        .ok ([.data dep ((fs.content q).map strip_comment)], false)) := by
  constructor
  · intro l hn
    exact ⟨fun h => strip_comment_of_none l h, fun i h => strip_comment_of_some l i h hn⟩
  · intro fs packages ib dep q h1 h2 h3 h4
    simp [processDep, h1, h2, h3, h4]

/-- Claim C1, counterexample to the claim as stated: on the line `a%b` the
unescaped `%` itself is not removed — the archived line is `a%`, not `a`. -/
theorem c1_counterexample :
    strip_comment (str "a%b\n") = str "a%\n" ∧ str "a%\n" ≠ str "a\n" ∧
      '%' ∈ strip_comment (str "a%b\n") :=
  ⟨rfl, by decide, by decide⟩

/-- Claim C1, witness: the amended theorem applied to the line `a%b`. -/
theorem c1_witness :
    '\n' ∉ str "a%b" ∧ strip_comment (str "a%b" ++ ['\n']) = str "a%\n" := by
  refine ⟨by decide, ?_⟩
  have h := (c1_amended.1 (str "a%b") (by decide)).2 1 (by decide)
  exact h.1.trans rfl

/-! ### Lemmas about `target` -/

theorem filter_length_mono {α : Type} (l : List α) (p q : α → Bool)
    (h : ∀ a, q a = true → p a = true) :
    (l.filter q).length ≤ (l.filter p).length := by
  induction l with
  | nil => exact Nat.le_refl 0
  | cons a as ih =>
    cases hq : q a with
    | true =>
      rw [List.filter_cons_of_pos hq, List.filter_cons_of_pos (h a hq)]
      simpa using ih
    | false =>
      rw [List.filter_cons_of_neg (by simp [hq])]
      cases hp : p a with
      | true => rw [List.filter_cons_of_pos hp]; exact Nat.le_succ_of_le ih
      | false => rw [List.filter_cons_of_neg (by simp [hp])]; exact ih

theorem filter_length_lt {α : Type} (l : List α) (p q : α → Bool)
    (h : ∀ a, q a = true → p a = true) (x : α) (hx : x ∈ l)
    (hpx : p x = true) (hqx : q x = false) :
    (l.filter q).length < (l.filter p).length := by
  induction l with
  | nil => cases hx
  | cons a as ih =>
    rcases List.mem_cons.mp hx with rfl | hmem
    · rw [List.filter_cons_of_pos hpx, List.filter_cons_of_neg (by simp [hqx])]
      exact Nat.lt_succ_of_le (filter_length_mono as p q h)
    · cases hq : q a with
      | true =>
        rw [List.filter_cons_of_pos hq, List.filter_cons_of_pos (h a hq)]
        simpa using ih hmem
      | false =>
        rw [List.filter_cons_of_neg (by simp [hq])]
        cases hp : p a with
        | true => rw [List.filter_cons_of_pos hp]; exact Nat.lt_succ_of_lt (ih hmem)
        | false => rw [List.filter_cons_of_neg (by simp [hp])]; exact ih hmem

theorem lookupLink_mem_keys {links : List (Str × Str)} {x y : Str}
    (h : lookupLink links x = some y) : x ∈ links.map Prod.fst := by
  unfold lookupLink at h
  cases hf : links.find? (fun p => decide (p.1 = x)) with
  | none => rw [hf] at h; cases h
  | some pr =>
    have hmem := List.mem_of_find?_eq_some hf
    have hpred := List.find?_some hf
    have hx : pr.1 = x := by simpa using hpred
    exact hx ▸ List.mem_map_of_mem Prod.fst hmem

theorem msr_lt {links : List (Str × Str)} {seen : List Str} {new : Str}
    (hk : new ∈ links.map Prod.fst) (hns : new ∉ seen) :
    msr links (new :: seen) < msr links seen := by
  exact filter_length_lt (links.map Prod.fst) (fun k => decide (k ∉ seen))
    (fun k => decide (k ∉ new :: seen))
    (fun a ha => by
      simp only [decide_eq_true_eq] at ha ⊢
      exact fun hmem => ha (List.mem_cons_of_mem new hmem))
    new hk (by simp [hns]) (by simp)

theorem target_aux_total (links : List (Str × Str)) :
    ∀ (fuel : Nat) (seen : List Str) (fname : Str), 1 ≤ fuel →
    (∀ y, lookupLink links fname = some y → msr links seen + 2 ≤ fuel) →
    ∃ r, target_aux links fuel seen fname = some r := by
  intro fuel
  induction fuel with
  | zero => intro seen fname h; omega
  | succ f ih =>
    intro seen fname _ h2
    cases hl : lookupLink links fname with
    | none => exact ⟨.ok fname, by simp [target_aux, hl]⟩
    | some new =>
      by_cases hmem : new ∈ seen
      · exact ⟨.cycle, by simp [target_aux, hl, hmem]⟩
      · have h1f : 1 ≤ f := by have := h2 new hl; omega
        have hrec : ∀ y, lookupLink links new = some y →
            msr links (new :: seen) + 2 ≤ f := by
          intro y hy
          have hk := lookupLink_mem_keys hy
          have hlt := msr_lt hk hmem
          have := h2 new hl
          omega
        obtain ⟨r, hr⟩ := ih (new :: seen) new h1f hrec
        exact ⟨r, by simp [target_aux, hl, hmem, hr]⟩

theorem target_total (links : List (Str × Str)) (fname : Str) :
    ∃ r, target links fname = some r := by
  apply target_aux_total links (links.length + 1) [fname] fname (by omega)
  intro y hy
  have hk := lookupLink_mem_keys hy
  have hlt := filter_length_lt (links.map Prod.fst) (fun _ => true)
    (fun k => decide (k ∉ ([fname] : List Str))) (fun a _ => rfl) fname hk rfl (by simp)
  have hm : msr links [fname] < links.length := by
    simpa [msr, List.length_map] using hlt
  omega

theorem target_aux_mono (links : List (Str × Str)) :
    ∀ (f1 f2 : Nat) (seen : List Str) (x : Str) (r : TargetResult),
    target_aux links f1 seen x = some r → f1 ≤ f2 →
    target_aux links f2 seen x = some r := by
  intro f1
  induction f1 with
  | zero => intro f2 seen x r h; simp [target_aux] at h
  | succ f ih =>
    intro f2 seen x r h hle
    cases f2 with
    | zero => omega
    | succ g =>
      unfold target_aux at h ⊢
      cases hl : lookupLink links x with
      | none =>
        rw [hl] at h
        exact h
      | some new =>
        rw [hl] at h
        have h2 : (if new ∈ seen then some TargetResult.cycle
            else target_aux links f (new :: seen) new) = some r := h
        show (if new ∈ seen then some TargetResult.cycle
            else target_aux links g (new :: seen) new) = some r
        by_cases hmem : new ∈ seen
        · rw [if_pos hmem] at h2
          rw [if_pos hmem]
          exact h2
        · rw [if_neg hmem] at h2
          rw [if_neg hmem]
          exact ih g (new :: seen) new r h2 (by omega)

theorem disj_singleton {x : Str} {ys : List Str} (hnd : (x :: ys).Nodup) :
    ∀ y ∈ ys, y ∉ ([x] : List Str) := by
  intro y hy
  simp only [List.mem_singleton]
  intro hxy
  exact (List.nodup_cons.mp hnd).1 (hxy ▸ hy)

theorem target_aux_chain (links : List (Str × Str)) :
    ∀ (ys : List Str) (x : Str) (seen : List Str) (fuel : Nat),
    pathLinksB links x ys = true → lookupLink links (ys.getLastD x) = none →
    (x :: ys).Nodup → (∀ y ∈ ys, y ∉ seen) → ys.length + 1 ≤ fuel →
    target_aux links fuel seen x = some (.ok (ys.getLastD x)) := by
  intro ys
  induction ys with
  | nil =>
    intro x seen fuel _ hlast _ _ hfuel
    cases fuel with
    | zero => simp at hfuel
    | succ f =>
      have hl : lookupLink links x = none := hlast
      simp [target_aux, hl, List.getLastD]
  | cons y ys ih =>
    intro x seen fuel hpath hlast hnodup hdisj hfuel
    simp only [pathLinksB, Bool.and_eq_true, decide_eq_true_eq] at hpath
    obtain ⟨hlx, hpath'⟩ := hpath
    cases fuel with
    | zero => simp at hfuel
    | succ f =>
      have hyseen : y ∉ seen := hdisj y (List.mem_cons_self y ys)
      have hstep : target_aux links (f + 1) seen x = target_aux links f (y :: seen) y := by
        simp [target_aux, hlx, hyseen]
      rw [hstep, List.getLastD_cons]
      have hnd : (y :: ys).Nodup := (List.nodup_cons.mp hnodup).2
      have hdis : ∀ z ∈ ys, z ∉ y :: seen := by
        intro z hz
        have hzy : z ≠ y := by
          have hyni := (List.nodup_cons.mp hnd).1
          intro hzy
          rw [hzy] at hz
          exact hyni hz
        have hzs : z ∉ seen := hdisj z (List.mem_cons_of_mem y hz)
        simp [List.mem_cons, hzy, hzs]
      have hlast' : lookupLink links (ys.getLastD y) = none := by
        rw [List.getLastD_cons] at hlast
        exact hlast
      have hfy : ys.length + 1 ≤ f := by
        simp only [List.length_cons] at hfuel
        omega
      exact ih y (y :: seen) f hpath' hlast' hnd hdis hfy

theorem target_chain (links : List (Str × Str)) (x : Str) (ys : List Str)
    (hchain : chainB links x ys = true) (hnd : (x :: ys).Nodup) :
    target links x = some (.ok (ys.getLastD x)) := by
  simp only [chainB, Bool.and_eq_true, Option.isNone_iff_eq_none] at hchain
  obtain ⟨hpath, hlast⟩ := hchain
  have hbig := target_aux_chain links ys x [x]
    (max (links.length + 1) (ys.length + 1)) hpath hlast hnd
    (disj_singleton hnd) (le_max_right _ _)
  obtain ⟨r, hr⟩ := target_total links x
  have hr2 := target_aux_mono links (links.length + 1)
    (max (links.length + 1) (ys.length + 1)) [x] x r hr (le_max_left _ _)
  rw [hr2] at hbig
  injection hbig with hb
  rw [hb] at hr
  exact hr

theorem target_aux_lasso (links : List (Str × Str)) :
    ∀ (ys : List Str) (x : Str) (seen : List Str) (fuel : Nat) (t : Str),
    pathLinksB links x ys = true → lookupLink links (ys.getLastD x) = some t →
    (t ∈ seen ∨ t ∈ x :: ys) → (x :: ys).Nodup → (∀ y ∈ ys, y ∉ seen) →
    x ∈ seen → ys.length + 2 ≤ fuel →
    target_aux links fuel seen x = some .cycle := by
  intro ys
  induction ys with
  | nil =>
    intro x seen fuel t _ hlast ht _ _ hxseen hfuel
    cases fuel with
    | zero => simp at hfuel
    | succ f =>
      have hl : lookupLink links x = some t := hlast
      have htseen : t ∈ seen := by
        rcases ht with h | h
        · exact h
        · rw [List.mem_singleton.mp h]
          exact hxseen
      simp [target_aux, hl, htseen]
  | cons y ys ih =>
    intro x seen fuel t hpath hlast ht hnd hdisj hxseen hfuel
    simp only [pathLinksB, Bool.and_eq_true, decide_eq_true_eq] at hpath
    obtain ⟨hlx, hpath'⟩ := hpath
    cases fuel with
    | zero => simp at hfuel
    | succ f =>
      have hyseen : y ∉ seen := hdisj y (List.mem_cons_self y ys)
      have hstep : target_aux links (f + 1) seen x = target_aux links f (y :: seen) y := by
        simp [target_aux, hlx, hyseen]
      rw [hstep]
      have hnd' : (y :: ys).Nodup := (List.nodup_cons.mp hnd).2
      have hdis : ∀ z ∈ ys, z ∉ y :: seen := by
        intro z hz
        have hzy : z ≠ y := by
          have hyni := (List.nodup_cons.mp hnd').1
          intro hzy
          rw [hzy] at hz
          exact hyni hz
        have hzs : z ∉ seen := hdisj z (List.mem_cons_of_mem y hz)
        simp [List.mem_cons, hzy, hzs]
      have ht' : t ∈ y :: seen ∨ t ∈ y :: ys := by
        rcases ht with h | h
        · exact Or.inl (List.mem_cons_of_mem y h)
        · rcases List.mem_cons.mp h with rfl | h2
          · exact Or.inl (List.mem_cons_of_mem y hxseen)
          · exact Or.inr h2
      have hlast' : lookupLink links (ys.getLastD y) = some t := by
        rw [List.getLastD_cons] at hlast
        exact hlast
      have hfy : ys.length + 2 ≤ f := by
        simp only [List.length_cons] at hfuel
        omega
      exact ih y (y :: seen) f t hpath' hlast' ht' hnd' hdis
        (List.mem_cons_self y seen) hfy

theorem target_lasso (links : List (Str × Str)) (x : Str) (ys : List Str) (t : Str)
    (hpath : pathLinksB links x ys = true)
    (hlast : lookupLink links (ys.getLastD x) = some t)
    (ht : t ∈ x :: ys) (hnd : (x :: ys).Nodup) :
    target links x = some .cycle := by
  have hbig := target_aux_lasso links ys x [x]
    (max (links.length + 1) (ys.length + 2)) t hpath hlast (Or.inr ht) hnd
    (disj_singleton hnd) (List.mem_singleton_self x) (le_max_right _ _)
  obtain ⟨r, hr⟩ := target_total links x
  have hr2 := target_aux_mono links (links.length + 1)
    (max (links.length + 1) (ys.length + 2)) [x] x r hr (le_max_left _ _)
  rw [hr2] at hbig
  injection hbig with hb
  rw [hb] at hr
  exact hr

/-- Claim C7: symlink resolution always terminates on the finite link
table; a resolution path led back into an already-visited name yields the
dedicated cycle error; a complete non-cyclic chain of any depth resolves to
its final non-link element; and the cycle error is distinct from the
file-does-not-exist error raised by `add`. -/
theorem c7_target :
    (∀ (links : List (Str × Str)) (x : Str), ∃ r, target links x = some r) ∧
    (∀ (links : List (Str × Str)) (x : Str) (ys : List Str),
      chainB links x ys = true → (x :: ys).Nodup →
      target links x = some (.ok (ys.getLastD x))) ∧
    (∀ (links : List (Str × Str)) (x : Str) (ys : List Str) (t : Str),
      pathLinksB links x ys = true → lookupLink links (ys.getLastD x) = some t →
      t ∈ x :: ys → (x :: ys).Nodup → target links x = some .cycle) ∧
    (∀ (fs : FS) (p a : Str), target fs.links p = some .cycle →
      add fs p a = .error .linkCycle) ∧
    (∀ q : Str, CErr.linkCycle ≠ CErr.missing q) :=
  ⟨target_total, target_chain, target_lasso,
   fun fs p a h => by simp [add, h], fun q h => by cases h⟩

/-- Claim C7, witness: the manufactured two-link cycle `a → b → a` is
reported as a cycle, and the chain `a → b → c` resolves to the real file
`c`. -/
theorem c7_witness :
    target [(str "a", str "b"), (str "b", str "a")] (str "a") = some .cycle ∧
    target [(str "a", str "b"), (str "b", str "c")] (str "a") =
      some (.ok (str "c")) := by
  constructor
  · exact c7_target.2.2.1 _ (str "a") [str "b"] (str "a") (by decide) (by decide)
      (by decide) (by decide)
  · exact c7_target.2.1 _ (str "a") [str "b", str "c"] (by decide) (by decide)

/-! ### Lemmas about the body loop of `collect` -/

theorem lastO_cons (l : Str) (pre : List Str) (last : Option Str) :
    lastO (l :: pre) last = lastO pre (some l) := by
  cases pre with
  | nil => rfl
  | cons p ps =>
    show lastO (l :: p :: ps) last = lastO (p :: ps) (some l)
    unfold lastO
    rw [List.getLast?_cons_cons]
    cases hg : (p :: ps).getLast? with
    | none => simp at hg
    | some x => rfl

theorem loopBody_split (fs : FS) (packages : List Str) (sc ib : Bool)
    (endL : List Str) :
    ∀ (pre rest : List Str) (last : Option Str) (es : List ArchiveEntry) (b : Bool),
    (∀ x ∈ pre, x ∉ endL) → processLines fs packages sc ib pre = .ok (es, b) →
    loopBody fs packages sc ib endL last (pre ++ rest) =
      (loopBody fs packages sc ib endL (lastO pre last) rest).map
        (fun r => (es ++ r.1, b || r.2.1, r.2.2)) := by
  intro pre
  induction pre with
  | nil =>
    intro rest last es b _ hp
    simp only [processLines] at hp
    have hp2 : ([] : List ArchiveEntry) = es ∧ false = b := by
      simpa using hp
    obtain ⟨he, hb⟩ := hp2
    subst he
    subst hb
    cases hres : loopBody fs packages sc ib endL last rest with
    | error e => simp [lastO, Except.map, hres]
    | ok v => simp [lastO, Except.map, hres]
  | cons l pre ih =>
    intro rest last es b hnend hp
    have hl : l ∉ endL := hnend l (List.mem_cons_self l pre)
    have hnend2 : ∀ x ∈ pre, x ∉ endL := fun x hx => hnend x (List.mem_cons_of_mem l hx)
    simp only [processLines] at hp
    cases hd : processDep fs packages sc ib (depOf l) with
    | error e => rw [hd] at hp; simp at hp
    | ok v =>
      obtain ⟨es1, b1⟩ := v
      rw [hd] at hp
      cases hrest : processLines fs packages sc ib pre with
      | error e => rw [hrest] at hp; simp at hp
      | ok w =>
        obtain ⟨es2, b2⟩ := w
        rw [hrest] at hp
        have hp2 : es1 ++ es2 = es ∧ (b1 || b2) = b := by
          simpa using hp
        obtain ⟨hes1, hb1⟩ := hp2
        have hstep : loopBody fs packages sc ib endL last ((l :: pre) ++ rest) =
            (match loopBody fs packages sc ib endL (some l) (pre ++ rest) with
             | .error e => .error e
             | .ok (es', b', r) => .ok (es1 ++ es', b1 || b', r)) := by
          show loopBody fs packages sc ib endL last (l :: (pre ++ rest)) = _
          simp only [loopBody, if_neg hl, hd]
        rw [hstep, ih rest (some l) es2 b2 hnend2 hrest, lastO_cons]
        cases hfin : loopBody fs packages sc ib endL (lastO pre (some l)) rest with
        | error e => simp [Except.map, hfin]
        | ok u =>
          obtain ⟨esr, br, rr⟩ := u
          simp [Except.map, hfin, ← hes1, ← hb1, List.append_assoc, Bool.or_assoc]

/-! ### Suffix disambiguation lemmas -/

theorem endsWith_trans {s a b : Str} (h1 : endsWithS s a = true)
    (h2 : endsWithS a b = true) : endsWithS s b = true := by
  simp only [endsWithS, List.isSuffixOf_iff_suffix] at h1 h2 ⊢
  exact h2.trans h1

theorem endsWith_sameLen {s a b : Str} (hlen : a.length = b.length)
    (h1 : endsWithS s a = true) (h2 : endsWithS s b = true) : a = b := by
  simp only [endsWithS, List.isSuffixOf_iff_suffix] at h1 h2
  obtain ⟨t1, ht1⟩ := h1
  obtain ⟨t2, ht2⟩ := h2
  have hteq : t1 ++ a = t2 ++ b := ht1.trans ht2.symm
  have hlt : t1.length = t2.length := by
    have hc := congrArg List.length hteq
    simp only [List.length_append] at hc
    omega
  exact (List.append_inj hteq hlt).2

theorem not_endsWith_tex_of_eps {dep : Str}
    (h : endsWithS dep (str ".eps") = true) :
    endsWithS dep (str ".tex") = false := by
  cases he : endsWithS dep (str ".tex") with
  | false => rfl
  | true => exact absurd (endsWith_sameLen (by decide) h he) (by decide)

theorem conv_suffixes {dep : Str}
    (h : endsWithS dep (str "-eps-converted-to.pdf") = true) :
    endsWithS dep (str ".tex") = false ∧ endsWithS dep (str ".eps") = false := by
  have hpdf : endsWithS dep (str ".pdf") = true := endsWith_trans h (by decide)
  constructor
  · cases he : endsWithS dep (str ".tex") with
    | false => rfl
    | true => exact absurd (endsWith_sameLen (by decide) hpdf he) (by decide)
  · cases he : endsWithS dep (str ".eps") with
    | false => rfl
    | true => exact absurd (endsWith_sameLen (by decide) hpdf he) (by decide)

theorem nl_mem_endLines {f t : Str} (h : t ∈ endLinesFor f) : '\n' ∈ t := by
  have hmem : t = str "#===End dependents for " ++ f ++ str ":\n" ∨
      t = str "#===End dependents for " ++ splitextRoot f ++ str ":\n" := by
    simpa [endLinesFor] using h
  rcases hmem with rfl | rfl
  · exact List.mem_append.mpr (Or.inr (by decide))
  · exact List.mem_append.mpr (Or.inr (by decide))

/-! ### Claim C2 -/

/-- Claim C2 (amended): whenever `<jobname>.bbl` exists on disk the
assembler archives it — resolved through `target` — under the name
`<base_name>.bbl`, regardless of whether the two names coincide; the file
looked up on disk is named after `jobname`, not `base_name`. -/
theorem c2_amended :
    ∀ (fs : FS) (packages : List Str) (sc ib : Bool) (f o : Str) (body : List Str)
      (es : List ArchiveEntry) (ub : Bool) (rest : List Str),
    loopBody fs packages sc ib (endLinesFor f) none body = .ok (es, ub, rest) →
    checkTrailer rest = .ok () →
    osExists fs (splitextRoot o ++ str ".bbl") = true →
    ∃ q, target fs.links (splitextRoot o ++ str ".bbl") = some (.ok q) ∧
      q ∈ fs.files ∧
      assemble fs packages sc ib f o body =
        .ok ⟨es ++ [.file q (splitextRoot f ++ str ".bbl")], false⟩ := by
  intro fs packages sc ib f o body es ub rest h1 h2 h3
  unfold osExists at h3
  cases ht : target fs.links (splitextRoot o ++ str ".bbl") with
  | none =>
    rw [ht] at h3
    exact absurd h3 (by simp)
  | some tr =>
    rw [ht] at h3
    cases tr with
    | cycle => exact absurd h3 (by simp)
    | ok q =>
      have hq : q ∈ fs.files := by simpa using h3
      refine ⟨q, rfl, hq, ?_⟩
      have hosx : osExists fs (splitextRoot o ++ str ".bbl") = true := by
        unfold osExists
        rw [ht]
        simp [hq]
      simp [assemble, h1, h2, finishBbl, hosx, add, ht, hq]

/-- Claim C2, counterexample to the claim as stated: `base.bbl` exists on
disk but the assembler checks for `job.bbl` (named after the jobname), so
nothing is archived when the two diverge. -/
theorem c2_counterexample :
    collect ⟨[], [str "base.bbl"], fun _ => []⟩ [str "biblatex"] true false
      [str "#===Dependents for base.tex:\n", str "job.pdf :\\\n",
       str "#===End dependents for base.tex:\n"] = .ok ⟨[], false⟩ ∧
    (str "base.bbl") ∈ ([str "base.bbl"] : List Str) :=
  ⟨rfl, by decide⟩

/-- Claim C2, witness: with `job.bbl` on disk the amended theorem yields
the archive member `base.bbl` sourced from `job.bbl`. -/
theorem c2_witness :
    assemble ⟨[], [str "job.bbl"], fun _ => []⟩ [str "biblatex"] true false
      (str "base.tex") (str "job.pdf") [str "#===End dependents for base.tex:\n"] =
      .ok ⟨[.file (str "job.bbl") (str "base.bbl")], false⟩ := by
  obtain ⟨q, hq1, hq2, hq3⟩ := c2_amended ⟨[], [str "job.bbl"], fun _ => []⟩
    [str "biblatex"] true false (str "base.tex") (str "job.pdf")
    [str "#===End dependents for base.tex:\n"] [] false [] rfl rfl rfl
  have hcomp : target ([] : List (Str × Str)) (splitextRoot (str "job.pdf") ++ str ".bbl") =
      some (.ok (str "job.bbl")) := rfl
  rw [hcomp] at hq1
  injection hq1 with h
  injection h with h
  rw [← h] at hq3
  exact hq3

/-! ### Claim C3 -/

/-- Claim C3 (amended): an absolute entry resolving to an existing file is
kept under its basename iff the compiled pattern `/p1|...|pn/` matches,
and in that alternation only the first package name carries the leading
separator and only the last the trailing one; for a single configured
package this is exactly the separator-wrapped substring test of the spec.
A non-matching absolute entry contributes nothing. -/
theorem c3_amended :
    (∀ (p dep : Str), pkgMatch [p] dep = wrappedMatch [p] dep) ∧
    (∀ (fs : FS) (packages : List Str) (sc ib : Bool) (dep q : Str),
      isAbsS dep = true → target fs.links dep = some (.ok q) → q ∈ fs.files →
      ((pkgMatch packages dep = true →
          processDep fs packages sc ib dep =
            .ok ([.file q (basenameS dep)], false)) ∧
       (pkgMatch packages dep = false →
          processDep fs packages sc ib dep = .ok ([], false)))) := by
  constructor
  · intro p dep
    rfl
  · intro fs packages sc ib dep q h1 h2 h3
    constructor
    · intro hm
      simp [processDep, h1, hm, add, h2, h3]
    · intro hm
      simp [processDep, h1, hm]

/-- Claim C3, counterexample to the claim as stated: with two configured
packages `aaa` and `bbb`, the absolute path `/x/mybbb/f.sty` contains no
package name wrapped in separators on both sides, yet the compiled pattern
matches (`bbb/` alone) and the file is kept. -/
theorem c3_counterexample :
    processDep ⟨[], [str "/x/mybbb/f.sty"], fun _ => []⟩ [str "aaa", str "bbb"]
      true false (str "/x/mybbb/f.sty") =
      .ok ([.file (str "/x/mybbb/f.sty") (str "f.sty")], false) ∧
    wrappedMatch [str "aaa", str "bbb"] (str "/x/mybbb/f.sty") = false :=
  ⟨rfl, by decide⟩

/-- Claim C3, witness: the amended theorem applied to a matching absolute
package file with the default single-package configuration. -/
theorem c3_witness :
    processDep ⟨[], [str "/usr/share/biblatex/x.sty"], fun _ => []⟩ [str "biblatex"]
      true false (str "/usr/share/biblatex/x.sty") =
      .ok ([.file (str "/usr/share/biblatex/x.sty") (str "x.sty")], false) := by
  have h := (c3_amended.2 ⟨[], [str "/usr/share/biblatex/x.sty"], fun _ => []⟩
    [str "biblatex"] true false (str "/usr/share/biblatex/x.sty")
    (str "/usr/share/biblatex/x.sty") rfl rfl (by decide)).1 (by decide)
  exact h.trans rfl

/-! ### Claim C4 -/

/-- Claim C4 (amended): every non-absolute `.eps` entry contributes exactly
the archive member obtained by adding its `-eps-converted-to.pdf` sibling
under the `.pdf`-renamed archive name — one member when the sibling exists,
an aborting error otherwise — and every non-absolute
`-eps-converted-to.pdf` entry contributes no member. -/
theorem c4_amended :
    (∀ (fs : FS) (packages : List Str) (sc ib : Bool) (dep : Str),
      isAbsS dep = false → endsWithS dep (str ".eps") = true →
      processDep fs packages sc ib dep =
        (match add fs (dropRightN dep 4 ++ str "-eps-converted-to.pdf")
            (dropRightN dep 4 ++ str ".pdf") with
         | .error e => .error e
         | .ok e => .ok ([e], false))) ∧
    (∀ (fs : FS) (packages : List Str) (sc ib : Bool) (dep : Str),
      isAbsS dep = false → endsWithS dep (str "-eps-converted-to.pdf") = true →
      processDep fs packages sc ib dep = .ok ([], false)) := by
  constructor
  · intro fs packages sc ib dep h1 h2
    have htex := not_endsWith_tex_of_eps h2
    simp [processDep, h1, h2, htex]
  · intro fs packages sc ib dep h1 h2
    obtain ⟨htex, heps⟩ := conv_suffixes h2
    simp [processDep, h1, h2, htex, heps]

/-- Claim C4, counterexample to the claim as stated: an absolute `.eps`
entry matching the package pattern is archived verbatim under its basename
— sourced from the `.eps` file itself, not from its converted sibling. -/
theorem c4_counterexample :
    collect ⟨[], [str "/a/biblatex/fig.eps"], fun _ => []⟩ [str "biblatex"] true false
      [str "#===Dependents for main.tex:\n", str "main.pdf :\\\n",
       str "/a/biblatex/fig.eps\n", str "#===End dependents for main.tex:\n"] =
      .ok ⟨[.file (str "/a/biblatex/fig.eps") (str "fig.eps")], false⟩ ∧
    ArchiveEntry.file (str "/a/biblatex/fig.eps") (str "fig.eps") ≠
      ArchiveEntry.file (str "/a/biblatex/fig-eps-converted-to.pdf")
        (str "/a/biblatex/fig.pdf") :=
  ⟨rfl, by decide⟩

/-- Claim C4, witness: the amended theorem on `figs/a.eps` with its
converted sibling on disk, and on a bare converted-artifact entry. -/
theorem c4_witness :
    processDep ⟨[], [str "figs/a-eps-converted-to.pdf"], fun _ => []⟩ [] true false
      (str "figs/a.eps") =
      .ok ([.file (str "figs/a-eps-converted-to.pdf") (str "figs/a.pdf")], false) ∧
    processDep ⟨[], [], fun _ => []⟩ [] true false
      (str "figs/a-eps-converted-to.pdf") = .ok ([], false) := by
  constructor
  · exact (c4_amended.1 ⟨[], [str "figs/a-eps-converted-to.pdf"], fun _ => []⟩
      [] true false (str "figs/a.eps") rfl (by decide)).trans rfl
  · exact c4_amended.2 ⟨[], [], fun _ => []⟩ [] true false
      (str "figs/a-eps-converted-to.pdf") rfl (by decide)

/-! ### Claim C6 -/

/-- Claim C6 (amended): with a `.bib` entry seen and no `<jobname>.bbl` on
disk the run still completes and only warns; and a dependency the
assembler actually attempts to archive (here: the catch-all class) that
does not exist on disk aborts the whole run with the missing-file error,
which propagates out of the body loop. -/
theorem c6_amended :
    (∀ (fs : FS) (packages : List Str) (sc ib : Bool) (f o : Str) (body : List Str)
        (es : List ArchiveEntry) (rest : List Str),
      loopBody fs packages sc ib (endLinesFor f) none body = .ok (es, true, rest) →
      checkTrailer rest = .ok () →
      osExists fs (splitextRoot o ++ str ".bbl") = false →
      assemble fs packages sc ib f o body = .ok ⟨es, true⟩) ∧
    (∀ (fs : FS) (packages : List Str) (sc ib : Bool) (dep q : Str),
      isAbsS dep = false → endsWithS dep (str ".tex") = false →
      endsWithS dep (str ".eps") = false →
      endsWithS dep (str "-eps-converted-to.pdf") = false →
      endsWithS dep (str ".bib") = false →
      target fs.links dep = some (.ok q) → q ∉ fs.files →
      processDep fs packages sc ib dep = .error (.missing dep)) ∧
    (∀ (fs : FS) (packages : List Str) (sc ib : Bool) (f o : Str)
        (pre post : List Str) (l : Str) (es : List ArchiveEntry) (b : Bool) (e : CErr),
      (∀ x ∈ pre, x ∉ endLinesFor f) →
      processLines fs packages sc ib pre = .ok (es, b) →
      l ∉ endLinesFor f →
      processDep fs packages sc ib (depOf l) = .error e →
      assemble fs packages sc ib f o (pre ++ l :: post) = .error e) := by
  refine ⟨?_, ?_, ?_⟩
  · intro fs packages sc ib f o body es rest h1 h2 h3
    simp [assemble, h1, h2, finishBbl, h3]
  · intro fs packages sc ib dep q h1 h2 h3 h4 h5 h6 h7
    simp [processDep, h1, h2, h3, h4, h5, add, h6, h7]
  · intro fs packages sc ib f o pre post l es b e hnend hpre hl hd
    have hsplit := loopBody_split fs packages sc ib (endLinesFor f) pre (l :: post)
      none es b hnend hpre
    have hstep : loopBody fs packages sc ib (endLinesFor f) (lastO pre none)
        (l :: post) = .error e := by
      simp [loopBody, if_neg hl, hd]
    simp [assemble, hsplit, hstep, Except.map]

/-- Claim C6, counterexample to the claim as stated: a referenced absolute
dependency that matches no package pattern is dropped without any existence
check, so a listing referencing a non-existent file completes without
raising. -/
theorem c6_counterexample :
    collect ⟨[], [], fun _ => []⟩ [str "biblatex"] true false
      [str "#===Dependents for main.tex:\n", str "main.pdf :\\\n",
       str "/x/nope.sty\n", str "#===End dependents for main.tex:\n"] =
      .ok ⟨[], false⟩ ∧
    (str "/x/nope.sty") ∉ ([] : List Str) :=
  ⟨rfl, by decide⟩

/-- Claim C6, witness: the amended theorem on a one-`.bib` listing with no
`.bbl` on disk (completes with the warning), and on a missing catch-all
dependency (aborts). -/
theorem c6_witness :
    assemble ⟨[], [], fun _ => []⟩ [] true false (str "main.tex") (str "main.pdf")
      [str "refs.bib\n", str "#===End dependents for main.tex:\n"] =
      .ok ⟨[], true⟩ ∧
    processDep ⟨[], [], fun _ => []⟩ [] true false (str "chap.sty") =
      .error (.missing (str "chap.sty")) := by
  constructor
  · exact c6_amended.1 ⟨[], [], fun _ => []⟩ [] true false (str "main.tex")
      (str "main.pdf") [str "refs.bib\n", str "#===End dependents for main.tex:\n"]
      [] [] rfl rfl rfl
  · exact c6_amended.2.1 ⟨[], [], fun _ => []⟩ [] true false (str "chap.sty")
      (str "chap.sty") rfl rfl rfl rfl rfl rfl (by decide)

/-! ### Claim C9 -/

/-- Claim C9: a terminator is recognized only with its trailing newline —
a line holding the terminator text but no newline is not matched against
`end_lines` and is processed as a dependency path instead (concretely: the
run tries to archive it and fails with the missing-file error). -/
theorem c9_terminator :
    (∀ (fs : FS) (packages : List Str) (sc ib : Bool) (f : Str) (last : Option Str)
        (l : Str) (ls : List Str), '\n' ∉ l →
      loopBody fs packages sc ib (endLinesFor f) last (l :: ls) =
        (match processDep fs packages sc ib (depOf l) with
         | .error e => .error e
         | .ok (es, b) =>
           match loopBody fs packages sc ib (endLinesFor f) (some l) ls with
           | .error e => .error e
           | .ok (es', b', rest) => .ok (es ++ es', b || b', rest))) ∧
    (collect ⟨[], [], fun _ => []⟩ [] true false
      [str "#===Dependents for main.tex:\n", str "main.pdf :\\\n",
       str "#===End dependents for main.tex:"] =
      .error (.missing (str "#===End dependents for main.tex:"))) := by
  constructor
  · intro fs packages sc ib f last l ls hnl
    have hne : l ∉ endLinesFor f := fun hmem => hnl (nl_mem_endLines hmem)
    simp [loopBody, if_neg hne]
  · rfl

/-- Claim C9, witness: the newline-less terminator text, at end of input,
goes down the dependency branch and fails as a missing file. -/
theorem c9_witness :
    loopBody ⟨[], [], fun _ => []⟩ [] true false (endLinesFor (str "main.tex")) none
      [str "#===End dependents for main.tex:"] =
      .error (.missing (str "#===End dependents for main.tex:")) := by
  exact (c9_terminator.1 ⟨[], [], fun _ => []⟩ [] true false (str "main.tex") none
    (str "#===End dependents for main.tex:") [] (by decide)).trans rfl

/-! ### Claim C10 -/

/-- Claim C10: the assembler deduplicates nothing — when the same
archivable line occurs twice in the body, its members are emitted twice,
once per occurrence, in listing order. -/
theorem c10_nodedup :
    ∀ (fs : FS) (packages : List Str) (sc ib : Bool) (f : Str) (last : Option Str)
      (pre mid post : List Str) (l : Str) (es1 es2 e : List ArchiveEntry)
      (b1 b2 bl : Bool),
    (∀ x ∈ pre, x ∉ endLinesFor f) → (∀ x ∈ mid, x ∉ endLinesFor f) →
    l ∉ endLinesFor f → e ≠ [] →
    processLines fs packages sc ib pre = .ok (es1, b1) →
    processLines fs packages sc ib mid = .ok (es2, b2) →
    processDep fs packages sc ib (depOf l) = .ok (e, bl) →
    loopBody fs packages sc ib (endLinesFor f) last (pre ++ l :: (mid ++ l :: post)) =
      (loopBody fs packages sc ib (endLinesFor f) (some l) post).map
        (fun r => (es1 ++ (e ++ (es2 ++ (e ++ r.1))),
                   b1 || (bl || (b2 || (bl || r.2.1))), r.2.2)) := by
  intro fs packages sc ib f last pre mid post l es1 es2 e b1 b2 bl
    hpre hmid hl hne hp1 hp2 hd
  rw [loopBody_split fs packages sc ib (endLinesFor f) pre (l :: (mid ++ l :: post))
    last es1 b1 hpre hp1]
  have hstep1 : loopBody fs packages sc ib (endLinesFor f) (lastO pre last)
      (l :: (mid ++ l :: post)) =
      (match loopBody fs packages sc ib (endLinesFor f) (some l) (mid ++ l :: post) with
       | .error e2 => .error e2
       | .ok (es', b', rest) => .ok (e ++ es', bl || b', rest)) := by
    simp [loopBody, if_neg hl, hd]
  rw [hstep1, loopBody_split fs packages sc ib (endLinesFor f) mid (l :: post)
    (some l) es2 b2 hmid hp2]
  have hstep2 : loopBody fs packages sc ib (endLinesFor f) (lastO mid (some l))
      (l :: post) =
      (match loopBody fs packages sc ib (endLinesFor f) (some l) post with
       | .error e2 => .error e2
       | .ok (es', b', rest) => .ok (e ++ es', bl || b', rest)) := by
    simp [loopBody, if_neg hl, hd]
  rw [hstep2]
  cases hfin : loopBody fs packages sc ib (endLinesFor f) (some l) post with
  | error e2 => simp [Except.map, hfin]
  | ok u =>
    obtain ⟨esr, br, rr⟩ := u
    simp [Except.map, hfin, List.append_assoc, Bool.or_assoc]

/-- Claim C10, witness: the same existing file listed twice before the
terminator yields two identical archive members, in order. -/
theorem c10_witness :
    loopBody ⟨[], [str "figs/x.pdf"], fun _ => []⟩ [] true false
      (endLinesFor (str "main.tex")) none
      [str "figs/x.pdf\n", str "figs/x.pdf\n",
       str "#===End dependents for main.tex:\n"] =
      .ok ([.file (str "figs/x.pdf") (str "figs/x.pdf"),
            .file (str "figs/x.pdf") (str "figs/x.pdf")], false, []) := by
  have h := c10_nodedup ⟨[], [str "figs/x.pdf"], fun _ => []⟩ [] true false
    (str "main.tex") none [] [] [str "#===End dependents for main.tex:\n"]
    (str "figs/x.pdf\n") [] [] [.file (str "figs/x.pdf") (str "figs/x.pdf")]
    false false false (by simp) (by simp) (by decide) (by decide) rfl rfl rfl
  exact h.trans rfl

/-! ### Claim C8 -/

theorem get_deps_aux_total (files : List Str) (choices : Nat → Char) :
    ∀ (fuel i : Nat) (s : Str),
    (files.filter (fun g => decide (s.length ≤ g.length))).length + 1 ≤ fuel →
    ∃ p, get_deps_aux files choices fuel i s = some p ∧ p ∉ files := by
  intro fuel
  induction fuel with
  | zero => intro i s h; omega
  | succ fu ih =>
    intro i s hm
    by_cases hs : s ∈ files
    · have hlen : (extendPath s (choices i)).length = s.length + 2 := by
        simp [extendPath]
      have hlt := filter_length_lt files
        (fun g => decide (s.length ≤ g.length))
        (fun g => decide ((extendPath s (choices i)).length ≤ g.length))
        (fun a ha => by
          simp only [decide_eq_true_eq] at ha ⊢
          rw [hlen] at ha
          omega)
        s hs (by simp) (by rw [hlen]; simp)
      obtain ⟨p, hp1, hp2⟩ := ih (i + 1) (extendPath s (choices i)) (by omega)
      exact ⟨p, by simp [get_deps_aux, hs, hp1], hp2⟩
    · exact ⟨s, by simp [get_deps_aux, hs], hs⟩

/-- Claim C8: the existence-check loop of `get_deps` always settles on a
path that names no pre-existing file at the time of the check — appending
`-<random letter>` suffixes as long as the current candidate exists — and a
requested path that does not already exist is used unchanged, so an
existing file is never clobbered. -/
theorem c8_get_deps :
    (∀ (files : List Str) (choices : Nat → Char) (start : Str),
      ∃ p, get_deps files choices start = some p ∧ p ∉ files) ∧
    (∀ (files : List Str) (choices : Nat → Char) (start : Str),
      start ∉ files → get_deps files choices start = some start) := by
  constructor
  · intro files choices start
    apply get_deps_aux_total files choices (files.length + 1) 0 start
    have hle := List.length_filter_le (fun g => decide (start.length ≤ g.length)) files
    omega
  · intro files choices start h
    simp [get_deps, get_deps_aux, h]

/-- Claim C8, witness: a requested path that does not exist is kept as is. -/
theorem c8_witness :
    get_deps [str ".deps"] (fun _ => 'q') (str ".deps-q") = some (str ".deps-q") :=
  c8_get_deps.2 [str ".deps"] (fun _ => 'q') (str ".deps-q") (by decide)

/-! ### Claim C5 -/

/-- Claim C5: on a deps file whose header and target lines parse but whose
body is empty — end of stream immediately after the target line — `collect`
crashes reading the never-assigned loop variable (`UnboundLocalError`)
instead of raising the descriptive parse error the spec requires; with at
least one processed body line and no terminator the parse error is
raised. -/
theorem c5_truncated :
    collect ⟨[], [], fun _ => []⟩ [str "biblatex"] true false
      [str "#===Dependents for main.tex:\n", str "main.pdf :\\\n"] =
      .error .unboundLocal ∧
    CErr.unboundLocal ≠ CErr.parseErr ∧
    loopBody ⟨[], [], fun _ => []⟩ [str "biblatex"] true false
      (endLinesFor (str "main.tex")) (some (str "existing.pdf\n")) [] =
      .error .parseErr :=
  ⟨rfl, by decide, rfl⟩

end ArxivCollector
